import Mathlib

/-!
Verification of the `meld` package's column-header normalization and
replicate-aggregation core against its specification.

The embedding models the Python source shallowly:

* column names are lists of characters (`Str`), so that Python's
  character-level string operations (`str.join` iterating a string's
  characters, `str.split`, `str.strip`, substring membership,
  `str.startswith`) are modelled faithfully;
* a pandas `DataFrame` is a `Table`: an ordered list of named, typed columns
  (`numeric` columns hold exact rationals, `object` columns hold strings);
* separators are modelled as single characters: both defaults in the source
  (`"_"` for `collapse_cols`, `" "` for `inflate_cols`) are one-character
  strings, and the properties under study concern single-character
  separators;
* fallible operations return `Except`; Python `ValueError`,
  `AssertionError`, pandas `KeyError` and the package's `HeaderError` are
  represented by explicit error constructors.
-/

/-- A Python string, modelled as its list of characters. -/
abbrev Str := List Char

/-! ## Python string primitives used by `meld/colfuncs.py` -/

/-- Python `sep.join(parts)` for a single-character separator `sep`. -/
def pyJoin (sep : Char) : List Str → Str
  | [] => []
  | [p] => p
  | p :: ps => p ++ sep :: pyJoin sep ps

/-- Python `s.split(sep)` for a single-character separator `sep`:
splits at every occurrence of `sep`; always returns at least one part. -/
def pySplitChar (sep : Char) : Str → List Str
  | [] => [[]]
  | c :: cs =>
    if c = sep then [] :: pySplitChar sep cs
    else
      match pySplitChar sep cs with
      | [] => [[c]]
      | p :: ps => (c :: p) :: ps

/-- Python `s.strip()`: removes leading and trailing whitespace.
`Char.isWhitespace` models Python's whitespace set for the ASCII range. -/
def pyStrip (s : Str) : Str :=
  ((s.dropWhile Char.isWhitespace).reverse.dropWhile Char.isWhitespace).reverse

/-! ## Column headers

A pandas column index is either a flat index of plain string names or a
`MultiIndex` whose entries are tuples of strings, all of the same length
(`nlevels`).  `collapse_cols` iterates `dataframe.columns.values`, so it sees
either plain strings or tuples. -/

/-- The column index of a dataframe: flat names, or multi-level header
tuples. -/
inductive Header where
  | flat (names : List Str)
  | multi (tuples : List (List Str))
deriving DecidableEq, Repr

/-! ## `meld/colfuncs.py` -/

/-- `collapse_cols(dataframe, sep="_")`:
`[sep.join(col).strip() for col in dataframe.columns.values]`.
On a multi-level header each `col` is a tuple of strings.  On a flat header
each `col` is a plain string, and Python's `sep.join` iterates the string's
characters, joining them with `sep`; no error is raised in either case. -/
def collapse_cols (header : Header) (sep : Char := '_') : List Str :=
  match header with
  | .multi tuples => tuples.map (fun col => pyStrip (pyJoin sep col))
  | .flat names => names.map (fun col => pyStrip (pyJoin sep (col.map (fun c => [c]))))

/-- The minimum length among a list of split results; `0` for no columns.
Models the truncation performed by Python's `zip(*...)`, which stops at the
shortest argument. -/
def minParts : List (List Str) → Nat
  | [] => 0
  | [s] => s.length
  | s :: rest => min s.length (minParts rest)

/-- `inflate_cols(dataframe, sep=" ")`:
`list(zip(*[col.split(sep) for col in dataframe.columns]))` followed by a
double transpose (`pd.DataFrame(header_tuples).T` / `MultiIndex.from_frame`).
`zip` truncates every column's split to the minimum part count, and the two
transposes then hand back, for each column, that truncated prefix of its
split — so the result is each name's split truncated to the minimum number
of parts over all columns. -/
def inflate_cols (names : List Str) (sep : Char := ' ') : List (List Str) :=
  let splits := names.map (pySplitChar sep)
  splits.map (fun s => s.take (minParts splits))

/-- The guard in `Merger.to_db` / `to_db_agg` (`meld/merge_to_db.py`): when
multiple header rows were requested, the columns are collapsed only if the
frame is actually multi-indexed; otherwise `HeaderError` is raised and
`collapse_cols` is never called. -/
def to_db_collapse (header : Header) (sep : Char := '_') : Except String (List Str) :=
  match header with
  | .multi _ => .ok (collapse_cols header sep)
  | .flat _ => .error "Multiple headers selected, yet dataframe is not multi-indexed, try with 'header=0'"


/-! ## Exact numeric cells

Numeric data is modelled by exact rationals in canonical form (lowest
terms, positive denominator); floating-point rounding is not modelled.
The gcd used for normalization is fuel-based structural recursion so that
all arithmetic reduces under `decide`. -/

/-- Euclid's algorithm with explicit fuel (`fuel > m` always suffices since
the first argument strictly decreases). -/
def gcdF : Nat → Nat → Nat → Nat
  | 0, _, n => n
  | _ + 1, 0, n => n
  | f + 1, m + 1, n => gcdF f (n % (m + 1)) (m + 1)

/-- Greatest common divisor. -/
def natGcd (m n : Nat) : Nat := gcdF (m + 1) m n

/-- An exact rational: numerator and (positive, coprime-to-numerator)
denominator.  All constructors below normalize, so values representing
dataframe cells are canonical and structural equality is value equality. -/
structure Frac where
  num : Int
  den : Nat
deriving DecidableEq, Repr

instance (n : Nat) : OfNat Frac n := ⟨⟨(n : Int), 1⟩⟩

/-- Build the canonical fraction `n / d`; `d = 0` is unreachable in the
pipeline (no division by zero occurs). -/
def Frac.mk' (n d : Int) : Frac :=
  if d = 0 then ⟨0, 1⟩
  else
    let n' := if d < 0 then -n else n
    let dn := d.natAbs
    let g := natGcd n'.natAbs dn
    ⟨n' / (g : Int), dn / g⟩

/-- Addition. -/
def Frac.add (a b : Frac) : Frac :=
  Frac.mk' (a.num * (b.den : Int) + b.num * (a.den : Int)) ((a.den : Int) * (b.den : Int))

/-- Division. -/
def Frac.div (a b : Frac) : Frac :=
  Frac.mk' (a.num * (b.den : Int)) ((a.den : Int) * b.num)

/-- Comparison (denominators are positive). -/
def Frac.le (a b : Frac) : Bool :=
  decide (a.num * (b.den : Int) ≤ b.num * (a.den : Int))

/-- Sum of a list of fractions. -/
def Frac.lsum (l : List Frac) : Frac := l.foldr Frac.add 0

/-! ## Data model for `meld/utils.py`

A `Table` models a pandas `DataFrame` with a flat (already collapsed) column
index: an ordered list of named columns.  Each column carries a pandas
dtype: `numeric` columns (any `np.number` subdtype) hold exact rationals
(`Frac`), `object` columns hold strings. -/

/-- A scalar cell value.  `nan` is the missing-value filler pandas inserts
for unmatched rows of an outer merge. -/
inductive Val where
  | num (q : Frac)
  | str (s : Str)
  | nan
deriving DecidableEq, Repr

/-- A dataframe column: its dtype and its values. -/
inductive Col where
  | numeric (vals : List Frac)
  | object (vals : List Str)
deriving DecidableEq, Repr

/-- Number of entries in a column. -/
def Col.size : Col → Nat
  | .numeric vs => vs.length
  | .object vs => vs.length

/-- A dataframe: ordered, named, typed columns. -/
structure Table where
  cols : List (Str × Col)
deriving DecidableEq, Repr

/-- `data.columns.tolist()`. -/
def Table.names (t : Table) : List Str := t.cols.map (fun p => p.1)

/-- Number of rows (length of the first column; `0` for no columns). -/
def Table.nrows (t : Table) : Nat :=
  match t.cols with
  | [] => 0
  | c :: _ => c.2.size

/-- First column stored under a name (pandas label lookup). -/
def Table.col? (t : Table) (n : Str) : Option Col :=
  (t.cols.find? (fun p => decide (p.1 = n))).map (fun p => p.2)

/-- The `on` argument of `aggregate`: a single column name or a list of
column names. -/
inductive Key where
  | one (s : Str)
  | many (l : List Str)
deriving DecidableEq, Repr

/-- The key columns being grouped on. -/
def Key.cols : Key → List Str
  | .one s => [s]
  | .many l => l

/-! ## Column classifier (`get_featuredata` / `get_metadata`) -/

/-- `get_featuredata(data, metadata_string="Metadata", prefix=False)`:
columns whose name does not start with (prefix mode) or does not contain
(substring mode) the metadata marker.  The `prefix` parameter is called
`pf` here; `List.IsPrefix` models `str.startswith` and `List.IsInfix`
models Python's substring test `metadata_string in i`. -/
def get_featuredata (names : List Str) (metadata_string : Str := "Metadata".toList)
    (pf : Bool := false) : List Str :=
  if pf then names.filter (fun i => !(decide (metadata_string <+: i)))
  else names.filter (fun i => !(decide (metadata_string <:+: i)))

/-- `get_metadata(data, metadata_string="Metadata", prefix=False)`:
columns whose name starts with (prefix mode) or contains (substring mode)
the metadata marker. -/
def get_metadata (names : List Str) (metadata_string : Str := "Metadata".toList)
    (pf : Bool := false) : List Str :=
  if pf then names.filter (fun i => decide (metadata_string <+: i))
  else names.filter (fun i => decide (metadata_string <:+: i))

/-! ## Input validation -/

/-- `_check_inputs(data, on, method)`.  The `isinstance(data, pd.DataFrame)`
check always passes here since every `Table` models a `DataFrame`.  Note the
source's `valid_methods` list omits `"sum"`, although `aggregate`'s
docstring lists it and `aggregate`'s body has an `np.sum` branch. -/
def _check_inputs (t : Table) (onKey : Key) (method : String) : Except String Unit :=
  let valid_methods : List String := ["median", "mean"]
  if !(valid_methods.contains method) then
    .error (method ++ " is not a valid method, options: median or mean")
  else
    match onKey with
    | .one s =>
      if !(decide (s ∈ t.names)) then .error "not a column in df" else .ok ()
    | .many l =>
      match l.find? (fun c => !(decide (c ∈ t.names))) with
      | some _ => .error "not a column in df"
      | none => .ok ()

/-- `np.issubdtype(data[c], np.number)` as a column-level dtype test; the
`none` branch is unreachable because checked names come from `t`'s columns. -/
def colIsNumeric (t : Table) (c : Str) : Bool :=
  match t.col? c with
  | some (Col.numeric _) => true
  | some (Col.object _) => false
  | none => true

/-- `[col for col in feature_cols if col not in [on]]` from
`_check_featuredata`.  When `on` is a single string, `[on]` is a
one-element list and the key column is excluded.  When `on` is a list,
`[on]` is a list containing that list, and no string column ever equals a
list, so nothing is excluded. -/
def cols_to_check (feature_cols : List Str) (onKey : Key) : List Str :=
  match onKey with
  | .one s => feature_cols.filter (fun c => !(decide (c = s)))
  | .many _ => feature_cols

/-- The two `ValueError`s `_check_featuredata` can raise: the intended
"non-numeric column found in feature data" error carrying the offending
columns, and the accidental error from `np.vectorize` — when the checked
set is empty, `df_to_check.dtypes` has size 0 and `np.vectorize` without
`otypes` raises `ValueError` before any dtype is inspected. -/
inductive FeatureCheckErr where
  | nonNumeric (cols : List Str)
  | vectorizeEmpty
deriving DecidableEq, Repr

/-- `_check_featuredata(data, on, **kwargs)`: every checked column must have
a numeric dtype; on failure the complete list of offending columns (in
column order) is collected and raised.  On an empty checked set the
function does not return normally either: `is_number(df_to_check.dtypes)`
raises the size-0 `np.vectorize` `ValueError`. -/
def _check_featuredata (t : Table) (onKey : Key) (metadata_string : Str := "Metadata".toList)
    (pf : Bool := false) : Except FeatureCheckErr Unit :=
  let feature_cols := get_featuredata t.names metadata_string pf
  let ctc := cols_to_check feature_cols onKey
  if ctc.isEmpty then .error .vectorizeEmpty
  else if ctc.all (fun c => colIsNumeric t c) then .ok ()
  else .error (.nonNumeric (ctc.filter (fun c => !(colIsNumeric t c))))

/-! ## Group-and-reduce machinery

`aggregate` calls `data.groupby(on, as_index=False).aggregate(np.<stat>)`.
Grouping partitions the row indices by equality of the key tuple; the
aggregated frame has one row per distinct key.  (pandas sorts group keys
ascending by default; this model keeps them in first-occurrence order,
which agrees with pandas on the row multiset, the row count, and each
group's contents — the spec leaves the output row order an open question.)
Non-numeric (object-dtype) columns are dropped by pandas as nuisance
columns when aggregating with `np.mean` / `np.median`. -/

/-- `np.mean` over a group's values, exactly.  (`np.mean` of an empty
list is NaN in numpy; the case is unreachable since groups are nonempty.) -/
def npMean (l : List Frac) : Frac := (Frac.lsum l).div ⟨(l.length : Int), 1⟩

/-- Insert into a sorted list (ascending). -/
def insertSorted (x : Frac) : List Frac → List Frac
  | [] => [x]
  | y :: ys => if x.le y then x :: y :: ys else y :: insertSorted x ys

/-- Sort ascending (insertion sort), as `np.median` sorts its input. -/
def sortQ : List Frac → List Frac
  | [] => []
  | x :: xs => insertSorted x (sortQ xs)

/-- `np.median`: middle element of the sorted values for odd length, the
mean of the two middle elements for even length.  The empty case is
unreachable (every group contains at least one row). -/
def npMedian (l : List Frac) : Frac :=
  let s := sortQ l
  let n := s.length
  if n = 0 then 0
  else if n % 2 = 1 then s.getD (n / 2) 0
  else ((s.getD (n / 2 - 1) 0).add (s.getD (n / 2) 0)).div 2

/-- `np.sum`. -/
def npSum (l : List Frac) : Frac := Frac.lsum l

/-- The statistic selected by the three `if method == ...` branches of
`aggregate`.  For any other method Python would leave `agg` unbound
(`UnboundLocalError`); that branch is unreachable because `_check_inputs`
runs first. -/
def statFn (method : String) : List Frac → Frac :=
  if method = "mean" then npMean
  else if method = "median" then npMedian
  else if method = "sum" then npSum
  else fun _ => 0

/-- The value of column `n` in row `i`.  The `none`/out-of-range branches
are unreachable for validated, rectangular tables. -/
def colValAt (t : Table) (n : Str) (i : Nat) : Val :=
  match t.col? n with
  | some (Col.numeric vs) => Val.num (vs.getD i 0)
  | some (Col.object vs) => Val.str (vs.getD i [])
  | none => Val.nan

/-- The key tuple of row `i`: the values of the key column(s) at row `i`
(row-wise tuple equality over the key columns is grouping equality). -/
def rowKey (t : Table) (k : Key) (i : Nat) : List Val :=
  k.cols.map (fun n => colValAt t n i)

/-- Indices of the first row of each distinct key, in row order.  These are
the groups of `groupby` (in first-occurrence order) and exactly the rows
`drop_duplicates(subset=on)` keeps. -/
def firstOccIdx (t : Table) (k : Key) : List Nat :=
  (List.range t.nrows).filter
    (fun i => (List.range i).all (fun j => !(decide (rowKey t k j = rowKey t k i))))

/-- All row indices belonging to the group of row `i0`. -/
def groupIdx (t : Table) (k : Key) (i0 : Nat) : List Nat :=
  (List.range t.nrows).filter (fun i => decide (rowKey t k i = rowKey t k i0))

/-- An intermediate pandas frame with untyped cells: the shape
`groupby(...).aggregate`, column selection and `pd.merge` produce. -/
abbrev Frame := List (Str × List Val)

/-- Number of rows of a frame (length of the first column). -/
def Frame.fnrows : Frame → Nat
  | [] => 0
  | c :: _ => c.2.length

/-- Label lookup in a frame. -/
def Frame.fcol? (f : Frame) (n : Str) : Option (List Val) :=
  (f.find? (fun p => decide (p.1 = n))).map (fun p => p.2)

/-- `grouped.aggregate(np.<stat>)` with `as_index=False`: the key
column(s) (one entry per group, namely the group's key values), followed by
every non-key numeric column reduced per group by the statistic; non-key
object columns are dropped as nuisance columns. -/
def aggFrame (t : Table) (k : Key) (method : String) : Frame :=
  let keyPart : Frame :=
    k.cols.map (fun n => (n, (firstOccIdx t k).map (fun i => colValAt t n i)))
  let featPart : Frame :=
    t.cols.filterMap (fun p =>
      if decide (p.1 ∈ k.cols) then none
      else
        match p.2 with
        | Col.numeric vs =>
          some (p.1, (firstOccIdx t k).map
            (fun i0 => Val.num (statFn method ((groupIdx t k i0).map (fun i => vs.getD i 0)))))
        | Col.object _ => none)
  keyPart ++ featPart

/-- All values of column `n`, as untyped cells. -/
def fullVals (t : Table) (n : Str) : List Val :=
  (List.range t.nrows).map (fun i => colValAt t n i)

/-- `df_metadata = data[get_metadata(data, **kwargs)].copy()`: the metadata
columns, in original order, with all rows. -/
def metaFull (t : Table) (metadata_string : Str) (pf : Bool) : Frame :=
  (get_metadata t.names metadata_string pf).map (fun n => (n, fullVals t n))

/-- Column assignment `df[n] = data[n]`: replaces the column in place if the
label exists, otherwise appends it at the end. -/
def setCol (f : Frame) (n : Str) (vals : List Val) : Frame :=
  if f.any (fun p => decide (p.1 = n)) then
    f.map (fun p => if decide (p.1 = n) then (n, vals) else p)
  else f ++ [(n, vals)]

/-- `df_metadata[on] = data[on]`: assigns each key column in turn. -/
def setKeyCols (f : Frame) (t : Table) (k : Key) : Frame :=
  k.cols.foldl (fun acc n => setCol acc n (fullVals t n)) f

/-- `df_metadata.drop_duplicates(subset=on, inplace=True)` applied after the
key assignment: keeps the first row of each distinct key.  The key columns
were just assigned from `data[on]`, so the kept row indices are exactly
`firstOccIdx` computed on the input table. -/
def metaFrame (t : Table) (k : Key) (metadata_string : Str) (pf : Bool) : Frame :=
  (setKeyCols (metaFull t metadata_string pf) t k).map
    (fun p => (p.1, (firstOccIdx t k).map (fun i => p.2.getD i Val.nan)))

/-- The key tuple of row `i` of a frame, read off the frame's own columns. -/
def frameRowKey (f : Frame) (onCols : List Str) (i : Nat) : List Val :=
  onCols.map (fun n => ((f.fcol? n).getD []).getD i Val.nan)

/-- The right-side rows matching left row `i` under key-tuple equality. -/
def matchesFor (left right : Frame) (onCols : List Str) (i : Nat) : List Nat :=
  (List.range right.fnrows).filter
    (fun j => decide (frameRowKey right onCols j = frameRowKey left onCols i))

/-- The row pairing of `pd.merge(left, right, on=onCols, how="outer")`:
rows are matched by key-tuple equality — every matched pair of row
indices, then the unmatched rows of either side (`none` marks the absent
side, to be padded with `nan`). -/
def mergePairs (left right : Frame) (onCols : List Str) : List (Option Nat × Option Nat) :=
  ((List.range left.fnrows).map (fun i =>
    if (matchesFor left right onCols i).isEmpty then [((some i : Option Nat), (none : Option Nat))]
    else (matchesFor left right onCols i).map (fun j => (some i, some j)))).flatten
  ++ ((List.range right.fnrows).filter (fun j =>
      (List.range left.fnrows).all
        (fun i => !(decide (frameRowKey right onCols j = frameRowKey left onCols i))))).map
      (fun j => ((none : Option Nat), (some j : Option Nat)))

/-- Read a cell of one merge side for an output row: `nan` when this side
has no matching row. -/
def mergeGetVal (f : Frame) (n : Str) : Option Nat → Val
  | none => Val.nan
  | some i => ((f.fcol? n).getD []).getD i Val.nan

/-- `pd.merge(left, right, on=onCols, how="outer",
suffixes=("remove_me", ""))`: one output row per element of `mergePairs`;
the key columns, then the left side's non-key columns, then the right
side's non-key columns; non-key columns appearing on both sides get the
suffix `remove_me` on the left copy while the right copy keeps its name. -/
def pdMerge (left right : Frame) (onCols : List Str) : Frame :=
  let pairs := mergePairs left right onCols
  let rightNames := right.map (fun p => p.1)
  let onPart : Frame := onCols.map (fun n =>
    (n, pairs.map (fun pr =>
      match pr.1 with
      | some i => mergeGetVal left n (some i)
      | none => mergeGetVal right n pr.2)))
  let leftPart : Frame := left.filterMap (fun p =>
    if decide (p.1 ∈ onCols) then none
    else
      some ((if decide (p.1 ∈ rightNames) then p.1 ++ "remove_me".toList else p.1),
        pairs.map (fun pr => mergeGetVal left p.1 pr.1)))
  let rightPart : Frame := right.filterMap (fun p =>
    if decide (p.1 ∈ onCols) then none
    else some (p.1, pairs.map (fun pr => mergeGetVal right p.1 pr.2)))
  onPart ++ leftPart ++ rightPart

/-- `merged_df[df_cols]`: reselects the listed columns in the given order;
pandas raises `KeyError` (here `none`) if a label is absent. -/
def reselect (f : Frame) (names : List Str) : Option Frame :=
  names.mapM (fun n => (f.fcol? n).map (fun vals => (n, vals)))

/-- The failure modes of `aggregate`.  `invalidArgument` and both
`featureCheck` cases are `ValueError`s in the source (the spec calls the
first two `InvalidArgumentError` and `NonNumericFeatureError`; the
size-0 `np.vectorize` error is an extra `ValueError` the spec does not
name), `keyError` is the pandas `KeyError` from `merged_df[df_cols]`, and
`mergeIntegrity` is the `AssertionError` of the final column-count assert
(the spec's `MergeIntegrityError`). -/
inductive AggErr where
  | invalidArgument (msg : String)
  | featureCheck (e : FeatureCheckErr)
  | keyError
  | mergeIntegrity
deriving DecidableEq, Repr

/-- `aggregate(data, on, method="median", **kwargs)` from `meld/utils.py`:
validate, group-and-reduce, rebuild the de-duplicated metadata side table,
outer-merge the two on the key, reselect the original column order, and
assert the column count is unchanged.  The source calls the grouping
parameter `on` (a reserved word in Lean, hence `onKey`). -/
def aggregate (t : Table) (onKey : Key) (method : String := "median")
    (metadata_string : Str := "Metadata".toList) (pf : Bool := false) :
    Except AggErr Frame :=
  match _check_inputs t onKey method with
  | .error e => .error (.invalidArgument e)
  | .ok _ =>
    match _check_featuredata t onKey metadata_string pf with
    | .error e => .error (.featureCheck e)
    | .ok _ =>
      let df_cols := t.names
      let agg := aggFrame t onKey method
      let df_metadata := metaFrame t onKey metadata_string pf
      let merged := pdMerge agg df_metadata onKey.cols
      match reselect merged df_cols with
      | none => .error .keyError
      | some out => if out.length = t.cols.length then .ok out else .error .mergeIntegrity

/-- Decidable equality for `Except` results, so that concrete runs of the
pipeline can be checked by `decide`. -/
instance {ε α : Type} [DecidableEq ε] [DecidableEq α] : DecidableEq (Except ε α) := fun a b =>
  match a, b with
  | .ok x, .ok y => if h : x = y then .isTrue (by rw [h]) else .isFalse (by simp [h])
  | .error x, .error y => if h : x = y then .isTrue (by rw [h]) else .isFalse (by simp [h])
  | .ok _, .error _ => .isFalse (by simp)
  | .error _, .ok _ => .isFalse (by simp)

/-! ## Concrete tables used as witnesses and counterexamples -/

/-- The spec's Example 2 table: key column `Image_ImageNumber` with values
`[1,1,2,2]` and feature column `Cell_Area` with values `[10,20,30,40]`. -/
def imageTable : Table :=
  ⟨[("Image_ImageNumber".toList, Col.numeric [1, 1, 2, 2]),
    ("Cell_Area".toList, Col.numeric [10, 20, 30, 40])]⟩

/-- The frame `aggregate(imageTable, "Image_ImageNumber", "median")`
produces: medians 15 and 35 for keys 1 and 2. -/
def imageAggExpected : Frame :=
  [("Image_ImageNumber".toList, [Val.num 1, Val.num 2]),
   ("Cell_Area".toList, [Val.num 15, Val.num 35])]

/-- A table with a metadata column: three rows for two image numbers. -/
def wellTable : Table :=
  ⟨[("Image_ImageNumber".toList, Col.numeric [1, 1, 2]),
    ("Cell_Area".toList, Col.numeric [10, 20, 30]),
    ("Metadata_Well".toList, Col.object ["A".toList, "A".toList, "B".toList])]⟩

/-- The frame `aggregate(wellTable, "Image_ImageNumber", "median")`
produces. -/
def wellAggExpected : Frame :=
  [("Image_ImageNumber".toList, [Val.num 1, Val.num 2]),
   ("Cell_Area".toList, [Val.num 15, Val.num 30]),
   ("Metadata_Well".toList, [Val.str "A".toList, Val.str "B".toList])]

/-- A one-column table whose only column `K` is a non-numeric feature
column. -/
def listKeyTable : Table := ⟨[("K".toList, Col.object ["a".toList])]⟩

/-- A table with a numeric feature column `A` and a non-numeric feature
column `B`. -/
def mixedTable : Table :=
  ⟨[("A".toList, Col.numeric [1]), ("B".toList, Col.object ["x".toList])]⟩

/-! ## Lemmas about the string primitives -/

/-- Splitting a string that contains no separator yields that single part. -/
theorem pySplitChar_no_sep (sep : Char) (s : Str) (h : sep ∉ s) :
    pySplitChar sep s = [s] := by
  induction s with
  | nil => rfl
  | cons c cs ih =>
    have hc : ¬(c = sep) := fun hcs => h (hcs ▸ List.mem_cons_self c cs)
    have hcs : sep ∉ cs := fun hm => h (List.mem_cons_of_mem c hm)
    simp only [pySplitChar, if_neg hc, ih hcs]

/-- Splitting `p ++ sep :: rest` when `p` is separator-free peels off `p`. -/
theorem pySplitChar_append (sep : Char) (p rest : Str) (hp : sep ∉ p) :
    pySplitChar sep (p ++ sep :: rest) = p :: pySplitChar sep rest := by
  induction p with
  | nil => simp [pySplitChar]
  | cons c p' ih =>
    have hc : ¬(c = sep) := fun hcs => hp (hcs ▸ List.mem_cons_self c p')
    have hp' : sep ∉ p' := fun hm => hp (List.mem_cons_of_mem c hm)
    simp only [List.cons_append, pySplitChar, if_neg hc]
    simp [ih hp']

/-- Splitting undoes joining when no part contains the separator. -/
theorem pySplitChar_pyJoin (sep : Char) (parts : List Str) (hne : parts ≠ [])
    (h : ∀ p ∈ parts, sep ∉ p) : pySplitChar sep (pyJoin sep parts) = parts := by
  induction parts with
  | nil => exact absurd rfl hne
  | cons p ps ih =>
    cases ps with
    | nil =>
      simp only [pyJoin]
      exact pySplitChar_no_sep sep p (h p (List.mem_cons_self p []))
    | cons q qs =>
      have hp : sep ∉ p := h p (List.mem_cons_self p (q :: qs))
      have hrest : ∀ r ∈ q :: qs, sep ∉ r := fun r hr => h r (List.mem_cons_of_mem p hr)
      simp only [pyJoin, pySplitChar_append sep p _ hp,
        ih (by simp) hrest]

/-- `minParts` is a lower bound on every entry's length. -/
theorem minParts_le (l : List (List Str)) (s : List Str) (hs : s ∈ l) :
    minParts l ≤ s.length := by
  induction l with
  | nil => cases hs
  | cons a rest ih =>
    cases rest with
    | nil =>
      have ha : s = a := by simpa using hs
      subst ha
      simp [minParts]
    | cons b r =>
      rcases List.mem_cons.mp hs with h | h
      · subst h
        simp only [minParts]
        exact Nat.min_le_left _ _
      · simp only [minParts]
        exact Nat.le_trans (Nat.min_le_right _ _) (ih h)

/-- `minParts` of a nonempty list of equal-length entries. -/
theorem minParts_const (l : List (List Str)) (d : Nat) (hne : l ≠ [])
    (h : ∀ s ∈ l, s.length = d) : minParts l = d := by
  induction l with
  | nil => exact absurd rfl hne
  | cons a rest ih =>
    cases rest with
    | nil => simpa [minParts] using h a (List.mem_cons_self a [])
    | cons b r =>
      have ha : a.length = d := h a (List.mem_cons_self a _)
      have hr : ∀ s ∈ b :: r, s.length = d := fun s hs => h s (List.mem_cons_of_mem a hs)
      simp [minParts, ih (by simp) hr, ha]

/-! ## C3, C6, C7, C10: the header codec -/

/-- C3 (amended): the collapse/inflate round trip reconstructs the original
header tuples provided additionally that no collapsed name is altered by
whitespace stripping.  (The tuples of a pandas `MultiIndex` all have the
same positive length `d`.) -/
theorem collapse_inflate_roundtrip (tuples : List (List Str)) (sep : Char) (d : Nat)
    (hd : 0 < d) (hlen : ∀ tup ∈ tuples, tup.length = d)
    (hsep : ∀ tup ∈ tuples, ∀ f ∈ tup, sep ∉ f)
    (hstrip : ∀ tup ∈ tuples, pyStrip (pyJoin sep tup) = pyJoin sep tup) :
    inflate_cols (collapse_cols (Header.multi tuples) sep) sep = tuples := by
  have hcollapse : collapse_cols (Header.multi tuples) sep = tuples.map (pyJoin sep) := by
    simp only [collapse_cols]
    exact List.map_congr_left hstrip
  have htup_ne : ∀ tup ∈ tuples, tup ≠ [] := by
    intro tup htup hnil
    have h1 := hlen tup htup
    rw [hnil] at h1
    simp only [List.length_nil] at h1
    omega
  have hsplits : (tuples.map (pyJoin sep)).map (pySplitChar sep) = tuples := by
    rw [List.map_map]
    have : ∀ tup ∈ tuples, (pySplitChar sep ∘ pyJoin sep) tup = id tup := by
      intro tup htup
      simpa using pySplitChar_pyJoin sep tup (htup_ne tup htup) (hsep tup htup)
    rw [List.map_congr_left this, List.map_id]
  cases htuples : tuples with
  | nil =>
    subst htuples
    simp [inflate_cols, collapse_cols]
  | cons t0 ts =>
    rw [← htuples]
    simp only [inflate_cols, hcollapse, hsplits]
    have hmp : minParts tuples = d := by
      apply minParts_const tuples d (by rw [htuples]; simp) hlen
    rw [hmp]
    have : ∀ tup ∈ tuples, tup.take d = id tup := by
      intro tup htup
      rw [← hlen tup htup]
      simp
    rw [List.map_congr_left this, List.map_id]

/-- C3 counterexample: a header tuple whose first field has leading
whitespace and which contains no separator character is not reconstructed:
`strip` removes the whitespace, so the round trip returns
`["A","B"]` instead of `[" A","B"]`. -/
theorem collapse_inflate_strip_ce :
    (('_' : Char) ∉ [' ', 'A'] ∧ ('_' : Char) ∉ ['B'])
    ∧ inflate_cols (collapse_cols (Header.multi [[[' ', 'A'], ['B']]]) '_') '_'
        ≠ [[[' ', 'A'], ['B']]] := by decide

/-- C3 witness: the amended round trip at the spec's Example 1 header
`[["Image","ImageNumber"],["Cell","Area"]]` with separator `_`. -/
theorem collapse_inflate_roundtrip_witness :
    inflate_cols (collapse_cols
      (Header.multi [["Image".toList, "ImageNumber".toList], ["Cell".toList, "Area".toList]]) '_') '_'
      = [["Image".toList, "ImageNumber".toList], ["Cell".toList, "Area".toList]] :=
  collapse_inflate_roundtrip _ '_' 2 (by decide) (by decide) (by decide) (by decide)

/-- C6 (amended): `inflate_cols` performs no part-count validation.  It
returns one tuple per column; every tuple has the minimum part count over
all columns, and is a prefix of its column's full split — names that split
into more parts are silently truncated, not rejected. -/
theorem inflate_cols_truncates (names : List Str) (sep : Char) :
    List.Forall₂
      (fun tup name =>
        tup.length = minParts (names.map (pySplitChar sep)) ∧ tup <+: pySplitChar sep name)
      (inflate_cols names sep) names := by
  simp only [inflate_cols]
  have hmin : ∀ s ∈ names.map (pySplitChar sep),
      minParts (names.map (pySplitChar sep)) ≤ s.length :=
    fun s hs => minParts_le _ s hs
  generalize hm : minParts (names.map (pySplitChar sep)) = m
  rw [hm] at hmin
  clear hm
  induction names with
  | nil => exact List.Forall₂.nil
  | cons n ns ih =>
    simp only [List.map_cons, List.map] at hmin ⊢
    refine List.Forall₂.cons ⟨?_, List.take_prefix _ _⟩ ?_
    · have h1 : m ≤ (pySplitChar sep n).length := hmin _ (by simp)
      simp [Nat.min_eq_left h1]
    · have : ∀ s ∈ ns.map (pySplitChar sep), m ≤ s.length := by
        intro s hs
        exact hmin s (by simp [hs])
      -- reuse the generic step on the tail
      simpa using ih this

/-- C6 counterexample: the two collapsed names split into two parts and one
part respectively, yet `inflate_cols` returns a (truncated) header rather
than failing. -/
theorem inflate_cols_uneven_ce :
    (pySplitChar '_' "A_B".toList).length = 2
    ∧ (pySplitChar '_' "C".toList).length = 1
    ∧ inflate_cols ["A_B".toList, "C".toList] '_' = [["A".toList], ["C".toList]] := by decide

/-- C7 (amended): on a table that is not multi-level, `collapse_cols`
itself does not fail — it returns one collapsed name per column (Python's
`sep.join` iterates each flat name's characters) — while the caller
`Merger.to_db` raises `HeaderError` before ever collapsing. -/
theorem collapse_cols_flat_no_failure (names : List Str) (sep : Char) :
    (collapse_cols (Header.flat names) sep).length = names.length
    ∧ to_db_collapse (Header.flat names) sep
        = Except.error "Multiple headers selected, yet dataframe is not multi-indexed, try with 'header=0'" := by
  constructor
  · simp [collapse_cols]
  · rfl

/-- C7 counterexample: a flat two-character column name `AB` is happily
"collapsed" to `A_B`; no error of any kind is produced. -/
theorem collapse_cols_flat_ce :
    collapse_cols (Header.flat ["AB".toList]) '_' = ["A_B".toList] := by decide

/-- Splitting on a separator absent from every name yields singleton
tuples, so `minParts` is `1` for a nonempty list of such names. -/
theorem minParts_singletons (names : List Str) (hne : names ≠ []) :
    minParts (names.map (fun n => [n])) = 1 := by
  apply minParts_const _ 1 (by simpa using hne)
  intro s hs
  rcases List.mem_map.mp hs with ⟨n, _, rfl⟩
  rfl

/-- C10: `collapse_cols` defaults to separator `_` while `inflate_cols`
defaults to separator `" "` (one space); hence for any header whose
collapsed names contain `_` but no space, inflating the collapsed names
with default arguments yields one-element header tuples instead of
recovering a multi-level header. -/
theorem default_separators_mismatch (header : Header)
    (_hu : ∀ n ∈ collapse_cols header, '_' ∈ n)
    (hs : ∀ n ∈ collapse_cols header, ¬(' ' ∈ n)) :
    collapse_cols header = collapse_cols header '_'
    ∧ (∀ ns : List Str, inflate_cols ns = inflate_cols ns ' ')
    ∧ inflate_cols (collapse_cols header) = (collapse_cols header).map (fun n => [n]) := by
  refine ⟨rfl, fun ns => rfl, ?_⟩
  cases hnames : collapse_cols header with
  | nil => simp [inflate_cols, hnames]
  | cons n0 ns0 =>
    rw [← hnames]
    have hsplits : (collapse_cols header).map (pySplitChar ' ')
        = (collapse_cols header).map (fun n => [n]) := by
      apply List.map_congr_left
      intro n hn
      exact pySplitChar_no_sep ' ' n (hs n hn)
    simp only [inflate_cols, hsplits]
    rw [minParts_singletons _ (by rw [hnames]; simp)]
    rw [List.map_map]
    apply List.map_congr_left
    intro n _
    rfl

/-- C10 witness: the header `[["A","B"]]` collapses (default `_`) to
`["A_B"]`, which inflates (default space) to the single-level header
`[["A_B"]]`. -/
theorem default_separators_mismatch_witness :
    inflate_cols (collapse_cols (Header.multi [["A".toList, "B".toList]]))
      = (collapse_cols (Header.multi [["A".toList, "B".toList]])).map (fun n => [n]) :=
  (default_separators_mismatch (Header.multi [["A".toList, "B".toList]])
    (by decide) (by decide)).2.2

/-! ## C4: the column classifier partitions the columns -/

/-- A filter and its negation partition a list. -/
theorem filter_not_partition {α : Type} (p : α → Bool) (l : List α) :
    (∀ c, (c ∈ l.filter (fun x => !(p x)) ∨ c ∈ l.filter p) ↔ c ∈ l)
    ∧ (∀ c, c ∈ l.filter (fun x => !(p x)) → ¬(c ∈ l.filter p))
    ∧ (l.filter p = [] → l.filter (fun x => !(p x)) = l) := by
  refine ⟨fun c => ?_, fun c hf hm => ?_, fun h => ?_⟩
  · simp only [List.mem_filter]
    constructor
    · rintro (⟨h1, _⟩ | ⟨h1, _⟩) <;> exact h1
    · intro h1
      cases hp : p c with
      | false => exact Or.inl ⟨h1, rfl⟩
      | true => exact Or.inr ⟨h1, rfl⟩
  · simp only [List.mem_filter] at hf hm
    rw [hm.2] at hf
    simp at hf
  · rw [List.filter_eq_nil_iff] at h
    apply List.filter_eq_self.mpr
    intro a ha
    simp [h a ha]

/-- C4: for every table, marker string and mode, the feature columns and the
metadata columns partition the full column list — their union (as sets of
names) is the column list and they are disjoint; and when the marker
matches no column, every column is a feature column. -/
theorem featuredata_metadata_partition (names : List Str) (M : Str) (pf : Bool) :
    (∀ c, (c ∈ get_featuredata names M pf ∨ c ∈ get_metadata names M pf) ↔ c ∈ names)
    ∧ (∀ c, c ∈ get_featuredata names M pf → ¬(c ∈ get_metadata names M pf))
    ∧ (get_metadata names M pf = [] → get_featuredata names M pf = names) := by
  cases pf with
  | false =>
    simpa [get_featuredata, get_metadata] using
      filter_not_partition (fun i => decide (M <:+: i)) names
  | true =>
    simpa [get_featuredata, get_metadata] using
      filter_not_partition (fun i => decide (M <+: i)) names

/-- C4 witness: with the default marker `Metadata` matching no column of
`["Cell_Area"]`, every column is classified as feature data (and no error
occurs — the classifier is total). -/
theorem featuredata_metadata_partition_witness :
    get_featuredata ["Cell_Area".toList] "Metadata".toList false = ["Cell_Area".toList] :=
  (featuredata_metadata_partition ["Cell_Area".toList] "Metadata".toList false).2.2 (by decide)

/-! ## C1: the statistic whitelist omits `sum` -/

/-- C1: contrary to the spec (and to `aggregate`'s own docstring, which
lists `"sum"` as an option, and to the dead `np.sum` branch in
`aggregate`'s body), `_check_inputs` only accepts `median` and `mean`:
calling `aggregate` with `method="sum"` on a perfectly valid table raises
`ValueError` and produces no table. -/
theorem aggregate_sum_rejected :
    aggregate imageTable (Key.one "Image_ImageNumber".toList) "sum" "Metadata".toList false
      = Except.error (AggErr.invalidArgument "sum is not a valid method, options: median or mean") := by
  decide

/-! ## C5: the non-numeric feature-data check -/

/-- C5 (amended): `_check_featuredata` returns normally iff the checked
set is nonempty and every column in it is numeric.  When non-numeric
checked columns exist it raises `NonNumericFeatureError` reporting exactly
the non-numeric columns of the checked set (all of them, in column
order); when the checked set is empty it instead raises the size-0
`np.vectorize` `ValueError`.  The checked set is the feature columns minus
the key column only when the key is a single string: for a list-valued
key, `col not in [on]` never excludes anything, so key columns are
checked too. -/
theorem check_featuredata_spec (t : Table) (onKey : Key) (M : Str) (pf : Bool) :
    (_check_featuredata t onKey M pf = Except.ok () ↔
      (cols_to_check (get_featuredata t.names M pf) onKey ≠ []
        ∧ ∀ c ∈ cols_to_check (get_featuredata t.names M pf) onKey, colIsNumeric t c = true))
    ∧ (∀ bad, _check_featuredata t onKey M pf = Except.error (FeatureCheckErr.nonNumeric bad) →
        bad = (cols_to_check (get_featuredata t.names M pf) onKey).filter
          (fun c => !(colIsNumeric t c)))
    ∧ (_check_featuredata t onKey M pf = Except.error FeatureCheckErr.vectorizeEmpty ↔
        cols_to_check (get_featuredata t.names M pf) onKey = []) := by
  unfold _check_featuredata
  dsimp only
  split
  next hemp =>
    rw [List.isEmpty_iff] at hemp
    refine ⟨⟨(fun he => nomatch he), fun hok => (absurd hemp hok.1 : _)⟩, ?_, ?_⟩
    · intro bad hbad
      cases hbad
    · exact ⟨fun _ => hemp, fun _ => rfl⟩
  next hemp =>
    have hne : cols_to_check (get_featuredata t.names M pf) onKey ≠ [] := by
      intro h
      rw [h] at hemp
      simp at hemp
    split
    next hall =>
      rw [List.all_eq_true] at hall
      refine ⟨⟨fun _ => ⟨hne, hall⟩, fun _ => rfl⟩, ?_, ?_⟩
      · intro bad hbad
        cases hbad
      · exact ⟨(fun he => nomatch he), fun h => absurd h hne⟩
    next hall =>
      refine ⟨⟨(fun he => nomatch he), fun h => absurd (List.all_eq_true.mpr h.2) hall⟩, ?_, ?_⟩
      · intro bad hbad
        cases hbad
        rfl
      · exact ⟨(fun he => nomatch he), fun h => absurd h hne⟩

/-- C5 counterexample: with a list-valued key `["K"]` whose column `K` is a
non-numeric feature column, `_check_featuredata` raises naming `K`, even
though the set of feature columns *other than the key columns* is empty —
so, as stated (error iff a non-key feature column is non-numeric), the
claim is false. -/
theorem check_featuredata_list_key_ce :
    _check_featuredata listKeyTable (Key.many ["K".toList]) "Metadata".toList false
      = Except.error (FeatureCheckErr.nonNumeric ["K".toList])
    ∧ (get_featuredata listKeyTable.names "Metadata".toList false).filter
        (fun c => !(decide (c ∈ (Key.many ["K".toList]).cols))) = [] := by decide

/-- C5 witness: on `mixedTable` with single-string key `A`, the check
fails with the non-numeric error and the reported list is exactly the
filter of all non-numeric checked columns (here `["B"]`). -/
theorem check_featuredata_spec_witness :
    ["B".toList]
      = (cols_to_check (get_featuredata mixedTable.names "Metadata".toList false)
          (Key.one "A".toList)).filter (fun c => !(colIsNumeric mixedTable c)) :=
  (check_featuredata_spec mixedTable (Key.one "A".toList) "Metadata".toList false).2.1
    ["B".toList] (by decide)

/-! ## C9: the spec's Example 2 -/

/-- C9: aggregating `imageTable` (key `Image_ImageNumber` = `[1,1,2,2]`,
feature `Cell_Area` = `[10,20,30,40]`) with statistic `median` succeeds and
returns rows keyed `1` and `2` with `Cell_Area` `15` and `35`. -/
theorem aggregate_median_example :
    aggregate imageTable (Key.one "Image_ImageNumber".toList) "median" "Metadata".toList false
      = Except.ok imageAggExpected := by decide

/-! ## C2: aggregate preserves the column structure -/

/-- A successful reselect returns columns named exactly as requested, in
the requested order. -/
theorem reselect_names (f : Frame) (names : List Str) (out : Frame)
    (h : reselect f names = some out) : out.map (fun p => p.1) = names := by
  induction names generalizing out with
  | nil =>
    simp only [reselect, List.mapM_nil, Option.pure_def, Option.some.injEq] at h
    rw [← h]
    rfl
  | cons n ns ih =>
    simp only [reselect, List.mapM_cons, Option.pure_def, Option.bind_eq_bind,
      Option.bind_eq_some, Option.map_eq_some', Option.some.injEq] at h
    rcases h with ⟨b, ⟨v, hv, hb⟩, bs, hbs, hout⟩
    rw [← hout, ← hb]
    simp only [List.map_cons]
    rw [ih bs hbs]

/-- Every column of a successful reselect carries the values of some
column of the source frame. -/
theorem reselect_vals (f : Frame) (names : List Str) (out : Frame)
    (h : reselect f names = some out) : ∀ p ∈ out, ∃ q ∈ f, p.2 = q.2 := by
  induction names generalizing out with
  | nil =>
    simp only [reselect, List.mapM_nil, Option.pure_def, Option.some.injEq] at h
    rw [← h]
    intro p hp
    cases hp
  | cons n ns ih =>
    simp only [reselect, List.mapM_cons, Option.pure_def, Option.bind_eq_bind,
      Option.bind_eq_some, Option.map_eq_some', Option.some.injEq] at h
    rcases h with ⟨b, ⟨v, hv, hb⟩, bs, hbs, hout⟩
    intro p hp
    rw [← hout] at hp
    rcases List.mem_cons.mp hp with hp | hp
    · subst hp
      rw [← hb]
      simp only [Frame.fcol?, Option.map_eq_some'] at hv
      rcases hv with ⟨q, hq, hqv⟩
      exact ⟨q, List.mem_of_find?_eq_some hq, hqv.symm⟩
    · exact ih bs hbs p hp

/-- C2: whenever `aggregate` returns a table, that table has exactly the
input's column names, in the input's order (hence the same column count);
any column-count anomaly surfaces as an error (`KeyError` from the
reselect or the `AssertionError` of the final count check), never as a
returned table. -/
theorem aggregate_preserves_columns (t : Table) (onKey : Key) (method : String)
    (M : Str) (pf : Bool) (out : Frame)
    (h : aggregate t onKey method M pf = Except.ok out) :
    out.map (fun p => p.1) = t.names ∧ out.length = t.cols.length := by
  unfold aggregate at h
  cases h1 : _check_inputs t onKey method with
  | error e => rw [h1] at h; cases h
  | ok u =>
    rw [h1] at h
    cases h2 : _check_featuredata t onKey M pf with
    | error bad => rw [h2] at h; cases h
    | ok u2 =>
      rw [h2] at h
      dsimp only at h
      cases h3 : reselect (pdMerge (aggFrame t onKey method) (metaFrame t onKey M pf) onKey.cols) t.names with
      | none => rw [h3] at h; cases h
      | some out' =>
        rw [h3] at h
        dsimp only at h
        by_cases hlen : out'.length = t.cols.length
        · rw [if_pos hlen] at h
          cases h
          exact ⟨reselect_names _ _ _ h3, hlen⟩
        · rw [if_neg hlen] at h
          cases h

/-- C2 witness: a concrete successful run on `wellTable` (median by
`Image_ImageNumber`) whose output has `wellTable`'s column names and
count. -/
theorem aggregate_preserves_columns_witness :
    wellAggExpected.map (fun p => p.1) = wellTable.names
    ∧ wellAggExpected.length = wellTable.cols.length :=
  aggregate_preserves_columns wellTable (Key.one "Image_ImageNumber".toList) "median"
    "Metadata".toList false wellAggExpected (by decide)

/-! ## C8: row count equals the number of distinct keys

The proof walks the pipeline: the aggregated frame has one row per first
occurrence of a key; the de-duplicated metadata frame has the same rows;
the outer merge matches them one-to-one; and the number of first
occurrences is the number of distinct key tuples. -/

/-- `getD` through a `map`, inside bounds. -/
theorem getD_map_of_lt {α β : Type} (l : List α) (f : α → β) (i : Nat) (d : β) (d' : α)
    (h : i < l.length) : (l.map f).getD i d = f (l.getD i d') := by
  rw [List.getD_eq_getElem?_getD, List.getD_eq_getElem?_getD, List.getElem?_map,
    List.getElem?_eq_getElem h]
  rfl

/-- `getD` on `range`, inside bounds. -/
theorem getD_range_of_lt (n i d : Nat) (h : i < n) : (List.range n).getD i d = i := by
  rw [List.getD_eq_getElem?_getD, List.getElem?_eq_getElem (by simpa using h)]
  simp

/-- `getD` inside bounds is a member. -/
theorem getD_mem_of_lt {α : Type} (l : List α) (i : Nat) (d : α) (h : i < l.length) :
    l.getD i d ∈ l := by
  rw [List.getD_eq_getElem?_getD, List.getElem?_eq_getElem h]
  exact List.getElem_mem h

/-- Filtering `range n` for equality with `i < n` leaves exactly `[i]`. -/
theorem filter_range_decide_eq (n i : Nat) (h : i < n) :
    (List.range n).filter (fun j => decide (j = i)) = [i] := by
  induction n with
  | zero => omega
  | succ m ih =>
    rw [List.range_succ, List.filter_append]
    by_cases him : i = m
    · subst him
      have h1 : (List.range i).filter (fun j => decide (j = i)) = [] := by
        apply List.filter_eq_nil_iff.mpr
        intro j hj
        simp only [List.mem_range] at hj
        simp
        omega
      simp [h1]
    · have h2 : i < m := by omega
      rw [ih h2]
      have : ¬(m = i) := fun hmi => him hmi.symm
      simp [this]

/-- Flattening a list of singleton lists is a `map`. -/
theorem flatten_map_singleton {α β : Type} (l : List α) (g : α → β) :
    (l.map (fun a => [g a])).flatten = l.map g := by
  induction l with
  | nil => rfl
  | cons a as ih => simp [ih]

/-- Looking up a name in a frame built by mapping names to columns. -/
theorem fcol?_map_named (l : List Str) (g : Str → List Val) (n : Str) (hn : n ∈ l) :
    Frame.fcol? (l.map (fun m => (m, g m))) n = some (g n) := by
  induction l with
  | nil => cases hn
  | cons m ms ih =>
    by_cases hmn : m = n
    · subst hmn
      simp only [List.map_cons, Frame.fcol?]
      rw [List.find?_cons_of_pos _ (by simp)]
      rfl
    · have hn' : n ∈ ms := by
        rcases List.mem_cons.mp hn with h | h
        · exact absurd h.symm hmn
        · exact h
      simp only [List.map_cons, Frame.fcol?]
      rw [List.find?_cons_of_neg _ (by simp [hmn])]
      exact ih hn'

/-- A successful lookup in the left part of an appended frame. -/
theorem fcol?_append_left (f1 f2 : Frame) (n : Str) (v : List Val)
    (h : Frame.fcol? f1 n = some v) : Frame.fcol? (f1 ++ f2) n = some v := by
  simp only [Frame.fcol?] at h ⊢
  rcases Option.map_eq_some'.mp h with ⟨q, hq, hqv⟩
  rw [List.find?_append, hq]
  simp [hqv]

/-- Lookup in a frame whose values were transformed column-wise. -/
theorem fcol?_map_snd (f : Frame) (g : List Val → List Val) (n : Str) :
    Frame.fcol? (f.map (fun p => (p.1, g p.2))) n = (Frame.fcol? f n).map g := by
  induction f with
  | nil => rfl
  | cons q qs ih =>
    by_cases hq : q.1 = n
    · simp only [List.map_cons, Frame.fcol?]
      rw [List.find?_cons_of_pos _ (by simp [hq]), List.find?_cons_of_pos _ (by simp [hq])]
      rfl
    · simp only [List.map_cons, Frame.fcol?]
      rw [List.find?_cons_of_neg _ (by simp [hq]), List.find?_cons_of_neg _ (by simp [hq])]
      exact ih

/-- Assigning a column makes it retrievable. -/
theorem setCol_fcol?_self (f : Frame) (n : Str) (v : List Val) :
    Frame.fcol? (setCol f n v) n = some v := by
  unfold setCol
  split
  next hany =>
    induction f with
    | nil => simp at hany
    | cons q qs ih =>
      by_cases hq : q.1 = n
      · have hd : (decide (q.1 = n)) = true := by simp [hq]
        simp only [List.map_cons, if_pos hd, Frame.fcol?]
        rw [List.find?_cons_of_pos _ (by simp)]
        rfl
      · have hd : ¬((decide (q.1 = n)) = true) := by simp [hq]
        have hqs : qs.any (fun p => decide (p.1 = n)) = true := by
          simp only [List.any_cons, Bool.or_eq_true] at hany
          rcases hany with h | h
          · exact absurd h hd
          · exact h
        simp only [List.map_cons, if_neg hd, Frame.fcol?]
        rw [List.find?_cons_of_neg _ (by simp [hq])]
        exact ih hqs
  next hany =>
    have hnone : List.find? (fun p => decide (p.1 = n)) f = none := by
      apply List.find?_eq_none.mpr
      intro x hx
      simp only [Bool.not_eq_true] at hany
      have := List.any_eq_false.mp hany x hx
      simpa using this
    simp only [Frame.fcol?]
    rw [List.find?_append, hnone]
    simp

/-- Assigning one column leaves lookups of other names unchanged. -/
theorem setCol_fcol?_other (f : Frame) (m n : Str) (v : List Val) (hmn : m ≠ n) :
    Frame.fcol? (setCol f m v) n = Frame.fcol? f n := by
  unfold setCol
  split
  next hany =>
    simp only [Frame.fcol?]
    congr 1
    clear hany
    induction f with
    | nil => rfl
    | cons q qs ih =>
      by_cases hq : q.1 = m
      · have hd : (decide (q.1 = m)) = true := by simp [hq]
        simp only [List.map_cons, if_pos hd]
        rw [List.find?_cons_of_neg _ (by simpa using hmn),
          List.find?_cons_of_neg _ (by simp [hq]; exact hmn)]
        exact ih
      · have hd : ¬((decide (q.1 = m)) = true) := by simp [hq]
        simp only [List.map_cons, if_neg hd]
        by_cases hqn : q.1 = n
        · rw [List.find?_cons_of_pos _ (by simp [hqn]), List.find?_cons_of_pos _ (by simp [hqn])]
        · rw [List.find?_cons_of_neg _ (by simp [hqn]), List.find?_cons_of_neg _ (by simp [hqn])]
          exact ih
  next =>
    simp only [Frame.fcol?]
    rw [List.find?_append]
    have : List.find? (fun p => decide (p.1 = n)) [(m, v)] = none := by
      simp [hmn]
    rw [this]
    simp

/-- Folding key-column assignments over names not containing `n` leaves
column `n` unchanged. -/
theorem foldl_setCol_preserve (t : Table) (ms : List Str) (g : Frame) (n : Str)
    (hn : ¬(n ∈ ms)) :
    Frame.fcol? (ms.foldl (fun acc c => setCol acc c (fullVals t c)) g) n
      = Frame.fcol? g n := by
  induction ms generalizing g with
  | nil => rfl
  | cons m ms' ih =>
    simp only [List.foldl_cons]
    have hm : m ≠ n := by
      intro h
      exact hn (h ▸ List.mem_cons_self m ms')
    rw [ih _ (fun h => hn (List.mem_cons_of_mem _ h)), setCol_fcol?_other _ _ _ _ hm]

/-- After `df_metadata[on] = data[on]`, each (distinct) key column holds
exactly the input's full key column. -/
theorem foldl_setCol_fcol? (t : Table) (l : List Str) (f : Frame) (n : Str)
    (hnd : l.Nodup) (hn : n ∈ l) :
    Frame.fcol? (l.foldl (fun acc c => setCol acc c (fullVals t c)) f) n
      = some (fullVals t n) := by
  induction l generalizing f with
  | nil => cases hn
  | cons m ms ih =>
    simp only [List.foldl_cons]
    rcases List.mem_cons.mp hn with h | h
    · subst h
      have hnotin : ¬(n ∈ ms) := (List.nodup_cons.mp hnd).1
      rw [foldl_setCol_preserve t ms _ n hnotin]
      exact setCol_fcol?_self f n _
    · exact ih _ (List.nodup_cons.mp hnd).2 h

/-- `setCol` never produces an empty frame. -/
theorem setCol_ne_nil (f : Frame) (n : Str) (v : List Val) : setCol f n v ≠ [] := by
  unfold setCol
  split
  next hany =>
    intro h
    rw [List.map_eq_nil_iff] at h
    subst h
    simp at hany
  next => simp

/-- Folding `setCol` preserves nonemptiness. -/
theorem foldl_setCol_ne_nil (t : Table) (ms : List Str) (g : Frame) (hg : g ≠ []) :
    ms.foldl (fun acc c => setCol acc c (fullVals t c)) g ≠ [] := by
  induction ms generalizing g with
  | nil => exact hg
  | cons m ms' ih => exact ih _ (setCol_ne_nil _ _ _)

/-- Columns of `setCol` keep the common length. -/
theorem setCol_len (f : Frame) (n : Str) (v : List Val) (N : Nat)
    (hlen : ∀ p ∈ f, p.2.length = N) (hv : v.length = N) :
    ∀ p ∈ setCol f n v, p.2.length = N := by
  unfold setCol
  split
  next =>
    intro p hp
    rcases List.mem_map.mp hp with ⟨q, hq, hpq⟩
    by_cases hqn : q.1 = n
    · have hd : (decide (q.1 = n)) = true := by simp [hqn]
      rw [if_pos hd] at hpq
      rw [← hpq]
      exact hv
    · have hd : ¬((decide (q.1 = n)) = true) := by simp [hqn]
      rw [if_neg hd] at hpq
      rw [← hpq]
      exact hlen q hq
  next =>
    intro p hp
    rcases List.mem_append.mp hp with h | h
    · exact hlen p h
    · rcases List.mem_singleton.mp h with rfl
      exact hv

/-- Columns of the key-assignment fold keep the common length `t.nrows`. -/
theorem foldl_setCol_len (t : Table) (ms : List Str) (g : Frame)
    (hg : ∀ p ∈ g, p.2.length = t.nrows) :
    ∀ p ∈ ms.foldl (fun acc c => setCol acc c (fullVals t c)) g, p.2.length = t.nrows := by
  induction ms generalizing g with
  | nil => exact hg
  | cons m ms' ih =>
    simp only [List.foldl_cons]
    apply ih
    apply setCol_len _ _ _ _ hg
    simp [fullVals]

/-- Membership in the first-occurrence index list. -/
theorem mem_firstOccIdx (t : Table) (k : Key) (i : Nat) :
    i ∈ firstOccIdx t k
      ↔ i < t.nrows ∧ ∀ j < i, rowKey t k j ≠ rowKey t k i := by
  simp only [firstOccIdx, List.mem_filter, List.mem_range, List.all_eq_true]
  constructor
  · rintro ⟨h1, h2⟩
    refine ⟨h1, fun j hj => ?_⟩
    have := h2 j (by simpa using hj)
    simpa using this
  · rintro ⟨h1, h2⟩
    refine ⟨h1, fun j hj => ?_⟩
    have := h2 j (by simpa using hj)
    simpa using this

/-- Distinct first occurrences carry pairwise distinct keys. -/
theorem firstOccIdx_pairwise (t : Table) (k : Key) :
    (firstOccIdx t k).Pairwise (fun a b => rowKey t k a ≠ rowKey t k b) := by
  have hlt : (firstOccIdx t k).Pairwise (· < ·) :=
    (List.pairwise_lt_range t.nrows).filter _
  apply List.Pairwise.imp_of_mem _ hlt
  intro a b ha hb hab
  exact ((mem_firstOccIdx t k b).mp hb).2 a hab

/-- The keys of the first occurrences are exactly the keys occurring in the
table. -/
theorem mem_map_rowKey_firstOccIdx (t : Table) (k : Key) (x : List Val) :
    x ∈ (firstOccIdx t k).map (rowKey t k)
      ↔ x ∈ (List.range t.nrows).map (rowKey t k) := by
  constructor
  · intro hx
    rcases List.mem_map.mp hx with ⟨i, hi, rfl⟩
    exact List.mem_map.mpr
      ⟨i, List.mem_range.mpr ((mem_firstOccIdx t k i).mp hi).1, rfl⟩
  · intro hx
    rcases List.mem_map.mp hx with ⟨i, hi, rfl⟩
    have hi' : i < t.nrows := List.mem_range.mp hi
    have hex : ∃ j, rowKey t k j = rowKey t k i := ⟨i, rfl⟩
    have hj : rowKey t k (Nat.find hex) = rowKey t k i := Nat.find_spec hex
    have hjle : Nat.find hex ≤ i := Nat.find_min' hex rfl
    have hjmem : Nat.find hex ∈ firstOccIdx t k := by
      apply (mem_firstOccIdx t k _).mpr
      refine ⟨Nat.lt_of_le_of_lt hjle hi', fun j' hj' heq => ?_⟩
      exact Nat.find_min hex hj' (heq.trans hj)
    exact List.mem_map.mpr ⟨Nat.find hex, hjmem, hj⟩

/-- The number of first occurrences is the number of distinct key tuples
present in the table. -/
theorem firstOccIdx_length_eq_dedup (t : Table) (k : Key) :
    (firstOccIdx t k).length
      = ((List.range t.nrows).map (rowKey t k)).dedup.length := by
  have hnd : ((firstOccIdx t k).map (rowKey t k)).Nodup := by
    exact List.Pairwise.map (rowKey t k) (fun _ _ h => h) (firstOccIdx_pairwise t k)
  have htf : ((firstOccIdx t k).map (rowKey t k)).toFinset
      = ((List.range t.nrows).map (rowKey t k)).toFinset := by
    ext x
    simp only [List.mem_toFinset]
    exact mem_map_rowKey_firstOccIdx t k x
  calc (firstOccIdx t k).length
      = ((firstOccIdx t k).map (rowKey t k)).length := (List.length_map _ _).symm
    _ = ((firstOccIdx t k).map (rowKey t k)).dedup.length := by
        rw [List.dedup_eq_self.mpr hnd]
    _ = ((firstOccIdx t k).map (rowKey t k)).toFinset.card := (List.card_toFinset _).symm
    _ = ((List.range t.nrows).map (rowKey t k)).toFinset.card := by rw [htf]
    _ = ((List.range t.nrows).map (rowKey t k)).dedup.length := List.card_toFinset _

/-- A nonempty frame of equal-length columns has that common row count. -/
theorem fnrows_of_all_len (f : Frame) (N : Nat) (hne : f ≠ [])
    (hlen : ∀ p ∈ f, p.2.length = N) : f.fnrows = N := by
  cases f with
  | nil => exact absurd rfl hne
  | cons c cs =>
    simp only [Frame.fnrows]
    exact hlen c (List.mem_cons_self c cs)

/-- A key column of the aggregated frame holds, per group, the group's key
value. -/
theorem aggFrame_fcol?_key (t : Table) (k : Key) (method : String) (n : Str)
    (hn : n ∈ k.cols) :
    Frame.fcol? (aggFrame t k method) n
      = some ((firstOccIdx t k).map (fun i => colValAt t n i)) := by
  unfold aggFrame
  dsimp only
  exact fcol?_append_left _ _ _ _ (fcol?_map_named k.cols _ n hn)

/-- Every column of the aggregated frame has one entry per group. -/
theorem aggFrame_col_len (t : Table) (k : Key) (method : String) :
    ∀ p ∈ aggFrame t k method, p.2.length = (firstOccIdx t k).length := by
  unfold aggFrame
  dsimp only
  intro p hp
  rcases List.mem_append.mp hp with h | h
  · rcases List.mem_map.mp h with ⟨n, hn, rfl⟩
    simp
  · rcases List.mem_filterMap.mp h with ⟨q, hq, hqp⟩
    by_cases hqk : (decide (q.1 ∈ k.cols)) = true
    · rw [if_pos hqk] at hqp
      cases hqp
    · rw [if_neg hqk] at hqp
      cases hcol : q.2 with
      | numeric vs =>
        rw [hcol] at hqp
        cases hqp
        simp
      | object vs =>
        rw [hcol] at hqp
        cases hqp

/-- The aggregated frame is nonempty when there is a key column. -/
theorem aggFrame_ne_nil (t : Table) (k : Key) (method : String) (hk : k.cols ≠ []) :
    aggFrame t k method ≠ [] := by
  unfold aggFrame
  dsimp only
  intro h
  rcases List.append_eq_nil.mp h with ⟨h1, _⟩
  rw [List.map_eq_nil_iff] at h1
  exact hk h1

/-- Row count of the aggregated frame: one row per group. -/
theorem aggFrame_fnrows (t : Table) (k : Key) (method : String) (hk : k.cols ≠ []) :
    (aggFrame t k method).fnrows = (firstOccIdx t k).length :=
  fnrows_of_all_len _ _ (aggFrame_ne_nil t k method hk) (aggFrame_col_len t k method)

/-- The aggregated frame's key tuple at output row `i` is the input's key
tuple at the group's first row. -/
theorem aggFrame_frameRowKey (t : Table) (k : Key) (method : String) (i : Nat)
    (hi : i < (firstOccIdx t k).length) :
    frameRowKey (aggFrame t k method) k.cols i
      = rowKey t k ((firstOccIdx t k).getD i 0) := by
  unfold frameRowKey rowKey
  apply List.map_congr_left
  intro n hn
  rw [aggFrame_fcol?_key t k method n hn]
  simp only [Option.getD_some]
  exact getD_map_of_lt _ _ _ _ 0 hi

/-- After the key assignment, each (distinct) key column of the metadata
frame holds the input's full key column. -/
theorem setKeyCols_fcol? (t : Table) (k : Key) (f : Frame) (n : Str)
    (hnd : k.cols.Nodup) (hn : n ∈ k.cols) :
    Frame.fcol? (setKeyCols f t k) n = some (fullVals t n) :=
  foldl_setCol_fcol? t k.cols f n hnd hn

/-- A key column of the de-duplicated metadata frame holds, per group, the
input key column's value at the group's first row. -/
theorem metaFrame_fcol?_key (t : Table) (k : Key) (M : Str) (pf : Bool) (n : Str)
    (hnd : k.cols.Nodup) (hn : n ∈ k.cols) :
    Frame.fcol? (metaFrame t k M pf) n
      = some ((firstOccIdx t k).map (fun i => (fullVals t n).getD i Val.nan)) := by
  unfold metaFrame
  have h1 := fcol?_map_snd (setKeyCols (metaFull t M pf) t k)
    (fun vals => List.map (fun i => vals.getD i Val.nan) (firstOccIdx t k)) n
  rw [setKeyCols_fcol? t k _ n hnd hn] at h1
  exact h1

/-- Every column of the de-duplicated metadata frame has one entry per
group. -/
theorem metaFrame_col_len (t : Table) (k : Key) (M : Str) (pf : Bool) :
    ∀ p ∈ metaFrame t k M pf, p.2.length = (firstOccIdx t k).length := by
  unfold metaFrame
  intro p hp
  rcases List.mem_map.mp hp with ⟨q, _, rfl⟩
  simp

/-- The metadata frame is nonempty when there is a key column. -/
theorem metaFrame_ne_nil (t : Table) (k : Key) (M : Str) (pf : Bool)
    (hk : k.cols ≠ []) : metaFrame t k M pf ≠ [] := by
  unfold metaFrame
  intro h
  rw [List.map_eq_nil_iff] at h
  unfold setKeyCols at h
  cases hc : k.cols with
  | nil => exact hk hc
  | cons m ms =>
    rw [hc] at h
    simp only [List.foldl_cons] at h
    exact foldl_setCol_ne_nil t ms _ (setCol_ne_nil _ _ _) h

/-- Row count of the de-duplicated metadata frame: one row per group. -/
theorem metaFrame_fnrows (t : Table) (k : Key) (M : Str) (pf : Bool)
    (hk : k.cols ≠ []) :
    (metaFrame t k M pf).fnrows = (firstOccIdx t k).length :=
  fnrows_of_all_len _ _ (metaFrame_ne_nil t k M pf hk) (metaFrame_col_len t k M pf)

/-- The metadata frame's key tuple at output row `i` is the input's key
tuple at the group's first row. -/
theorem metaFrame_frameRowKey (t : Table) (k : Key) (M : Str) (pf : Bool) (i : Nat)
    (hnd : k.cols.Nodup) (hi : i < (firstOccIdx t k).length) :
    frameRowKey (metaFrame t k M pf) k.cols i
      = rowKey t k ((firstOccIdx t k).getD i 0) := by
  unfold frameRowKey rowKey
  apply List.map_congr_left
  intro n hn
  rw [metaFrame_fcol?_key t k M pf n hnd hn]
  simp only [Option.getD_some]
  rw [getD_map_of_lt _ _ _ _ 0 hi]
  have hmem : (firstOccIdx t k).getD i 0 ∈ firstOccIdx t k := getD_mem_of_lt _ _ _ hi
  have hlt : (firstOccIdx t k).getD i 0 < t.nrows := ((mem_firstOccIdx t k _).mp hmem).1
  unfold fullVals
  rw [getD_map_of_lt _ _ _ _ 0 (by simpa using hlt), getD_range_of_lt _ _ _ hlt]

/-- When the two sides have the same row count, the same pairwise-distinct
key per row index, the outer merge pairs row `i` with row `i` exactly. -/
theorem mergePairs_of_matching (left right : Frame) (oc : List Str) (L : Nat)
    (key : Nat → List Val)
    (hL : left.fnrows = L) (hR : right.fnrows = L)
    (hl : ∀ i, i < L → frameRowKey left oc i = key i)
    (hr : ∀ j, j < L → frameRowKey right oc j = key j)
    (hinj : ∀ i, i < L → ∀ j, j < L → key i = key j → i = j) :
    mergePairs left right oc
      = (List.range L).map (fun i => ((some i : Option Nat), (some i : Option Nat))) := by
  have hmatch : ∀ i ∈ List.range L, matchesFor left right oc i = [i] := by
    intro i hi
    have hiL : i < L := List.mem_range.mp hi
    unfold matchesFor
    rw [hR]
    have hcong : ∀ j ∈ List.range L,
        (decide (frameRowKey right oc j = frameRowKey left oc i)) = (decide (j = i)) := by
      intro j hj
      have hjL : j < L := List.mem_range.mp hj
      rw [hr j hjL, hl i hiL]
      by_cases h : key j = key i
      · rw [decide_eq_true h, decide_eq_true (hinj j hjL i hiL h)]
      · rw [decide_eq_false h, decide_eq_false (fun he => h (by rw [he]))]
    rw [List.filter_congr hcong, filter_range_decide_eq L i hiL]
  unfold mergePairs
  rw [hL, hR]
  have hfun : ∀ i ∈ List.range L,
      (if (matchesFor left right oc i).isEmpty then [((some i : Option Nat), (none : Option Nat))]
       else (matchesFor left right oc i).map (fun j => ((some i : Option Nat), (some j : Option Nat))))
      = [((some i : Option Nat), (some i : Option Nat))] := by
    intro i hi
    rw [hmatch i hi]
    rfl
  rw [List.map_congr_left hfun, flatten_map_singleton]
  have h2 : (List.range L).filter (fun j =>
      (List.range L).all
        (fun i => !(decide (frameRowKey right oc j = frameRowKey left oc i)))) = [] := by
    apply List.filter_eq_nil_iff.mpr
    intro j hj
    have hjL := List.mem_range.mp hj
    intro hall
    rw [List.all_eq_true] at hall
    have hjj := hall j hj
    rw [hr j hjL, hl j hjL] at hjj
    simp at hjj
  rw [h2]
  simp

/-- Every column of the merged frame has one entry per merge pair. -/
theorem pdMerge_col_len (left right : Frame) (oc : List Str) :
    ∀ p ∈ pdMerge left right oc, p.2.length = (mergePairs left right oc).length := by
  unfold pdMerge
  dsimp only
  intro p hp
  rcases List.mem_append.mp hp with hp | hp
  · rcases List.mem_append.mp hp with hp | hp
    · rcases List.mem_map.mp hp with ⟨n, _, rfl⟩
      simp
    · rcases List.mem_filterMap.mp hp with ⟨q, hq, hqp⟩
      by_cases hqk : (decide (q.1 ∈ oc)) = true
      · rw [if_pos hqk] at hqp
        cases hqp
      · rw [if_neg hqk] at hqp
        cases hqp
        simp
  · rcases List.mem_filterMap.mp hp with ⟨q, hq, hqp⟩
    by_cases hqk : (decide (q.1 ∈ oc)) = true
    · rw [if_pos hqk] at hqp
      cases hqp
    · rw [if_neg hqk] at hqp
      cases hqp
      simp

/-- Positions in the first-occurrence list determine their keys
injectively. -/
theorem firstOccIdx_key_inj (t : Table) (k : Key) :
    ∀ i, i < (firstOccIdx t k).length → ∀ j, j < (firstOccIdx t k).length →
      rowKey t k ((firstOccIdx t k).getD i 0) = rowKey t k ((firstOccIdx t k).getD j 0)
      → i = j := by
  intro i hi j hj heq
  by_contra hne
  have hpw := firstOccIdx_pairwise t k
  rw [List.pairwise_iff_get] at hpw
  have hgi : (firstOccIdx t k).getD i 0 = (firstOccIdx t k).get ⟨i, hi⟩ := by
    rw [List.getD_eq_getElem?_getD, List.getElem?_eq_getElem hi]
    rfl
  have hgj : (firstOccIdx t k).getD j 0 = (firstOccIdx t k).get ⟨j, hj⟩ := by
    rw [List.getD_eq_getElem?_getD, List.getElem?_eq_getElem hj]
    rfl
  rcases Nat.lt_or_ge i j with hlt | hge
  · exact hpw ⟨i, hi⟩ ⟨j, hj⟩ (Fin.mk_lt_mk.mpr hlt) (by rw [← hgi, ← hgj]; exact heq)
  · have hlt : j < i := Nat.lt_of_le_of_ne hge (fun e => hne e.symm)
    exact hpw ⟨j, hj⟩ ⟨i, hi⟩ (Fin.mk_lt_mk.mpr hlt) (by rw [← hgi, ← hgj]; exact heq.symm)

/-- C8: whenever `aggregate` returns a table, every column of that table
has exactly one entry per distinct key tuple present in the input (so the
output row count is the number of distinct group-key values). -/
theorem aggregate_row_count (t : Table) (onKey : Key) (method : String) (M : Str)
    (pf : Bool) (out : Frame) (hk : onKey.cols ≠ []) (hnd : onKey.cols.Nodup)
    (h : aggregate t onKey method M pf = Except.ok out) :
    ∀ p ∈ out, p.2.length
      = ((List.range t.nrows).map (rowKey t onKey)).dedup.length := by
  unfold aggregate at h
  cases h1 : _check_inputs t onKey method with
  | error e => rw [h1] at h; cases h
  | ok u =>
    rw [h1] at h
    cases h2 : _check_featuredata t onKey M pf with
    | error bad => rw [h2] at h; cases h
    | ok u2 =>
      rw [h2] at h
      dsimp only at h
      cases h3 : reselect (pdMerge (aggFrame t onKey method) (metaFrame t onKey M pf) onKey.cols) t.names with
      | none => rw [h3] at h; cases h
      | some out' =>
        rw [h3] at h
        dsimp only at h
        by_cases hlen : out'.length = t.cols.length
        · rw [if_pos hlen] at h
          cases h
          have hpairs : mergePairs (aggFrame t onKey method) (metaFrame t onKey M pf) onKey.cols
              = (List.range (firstOccIdx t onKey).length).map
                  (fun i => ((some i : Option Nat), (some i : Option Nat))) :=
            mergePairs_of_matching _ _ _ _
              (fun i => rowKey t onKey ((firstOccIdx t onKey).getD i 0))
              (aggFrame_fnrows t onKey method hk) (metaFrame_fnrows t onKey M pf hk)
              (fun i hi => aggFrame_frameRowKey t onKey method i hi)
              (fun j hj => metaFrame_frameRowKey t onKey M pf j hnd hj)
              (firstOccIdx_key_inj t onKey)
          intro p hp
          rcases reselect_vals _ _ _ h3 p hp with ⟨q, hq, hpq⟩
          rw [hpq, pdMerge_col_len _ _ _ q hq, hpairs, List.length_map, List.length_range,
            firstOccIdx_length_eq_dedup]
        · rw [if_neg hlen] at h
          cases h

/-- C8 witness: on `wellTable` (keys `[1,1,2]`, two distinct), the key
column of the concrete output of `aggregate` has two entries, the number
of distinct keys. -/
theorem aggregate_row_count_witness :
    (("Image_ImageNumber".toList, [Val.num 1, Val.num 2]) : Str × List Val).2.length
      = ((List.range wellTable.nrows).map
          (rowKey wellTable (Key.one "Image_ImageNumber".toList))).dedup.length :=
  aggregate_row_count wellTable (Key.one "Image_ImageNumber".toList) "median"
    "Metadata".toList false wellAggExpected (by decide) (by decide) (by decide)
    ("Image_ImageNumber".toList, [Val.num 1, Val.num 2]) (by decide)
